import Mathlib

/-!
Verification of `binary_search_tree.c`.

A shallow embedding of the unbalanced binary search tree from
`src/data_structures/binary_trees/binary_search_tree.c`, together with proofs
of its specified properties.

Each C function over `node *` pointers becomes a Lean function over an
inductive `Tree`; the `NULL` pointer becomes the `Tree.nil` constructor.
The C `int` keys become `Int`.  Memory management (`malloc`/`free`) has no
observable effect on the tree shape and is not modelled; `purge` and the
printing routines are likewise outside the claims.
-/

namespace BSTC

/-- The `node` struct: left child, key (`data` in the source), right child.
`nil` is the `NULL` pointer / empty tree. -/
inductive Tree where
  | nil : Tree
  | node (left : Tree) (data : Int) (right : Tree) : Tree
  deriving Repr, DecidableEq

namespace Tree

/-- Test for `root == NULL`, used by `delete`'s case analysis. -/
def isNil : Tree → Bool
  | .nil => true
  | .node _ _ _ => false

/-- The key stored at the root (`root->data`), when the tree is non-empty. -/
def rootData : Tree → Option Int
  | .nil => none
  | .node _ d _ => some d

end Tree

/-- The C `insert(root, data)`: descend right on `data > root->data`, left on
`data < root->data`, create a node at a `NULL` slot, no-op on equality. -/
def insert : Tree → Int → Tree
  | .nil, data => .node .nil data .nil
  | .node left d right, data =>
    if d < data then .node left d (insert right data)
    else if data < d then .node (insert left data) d right
    else .node left d right

/-- The C `getMax(root)`: descend right while a right child exists and return the
rightmost node.  The C function dereferences `root` unconditionally, so it is
undefined on `NULL`; that case is modelled as `none`. -/
def getMax : Tree → Option Tree
  | .nil => none
  | .node l d .nil => some (.node l d .nil)
  | .node _ _ (.node rl rd rr) => getMax (.node rl rd rr)

/-- The C `delete(root, data)`: descend by comparison; on a match remove a leaf,
splice out a one-child node, or — with two children — copy the key of
`getMax(root->left)` into the node and delete that key from the left subtree.
The final match arm is the (unreachable) case where `getMax` would have been
handed `NULL`. -/
def delete : Tree → Int → Tree
  | .nil, _ => .nil
  | .node left d right, data =>
    if d < data then .node left d (delete right data)
    else if data < d then .node (delete left data) d right
    else
      if left.isNil && right.isNil then .nil
      else if left.isNil then right
      else if right.isNil then left
      else
        match getMax left with
        | some (.node _ m _) => .node (delete left m) m right
        | _ => .nil

/-- The C `find(root, data)`: returns the C `int` 1 when the key is present and 0
when it is not, with the same branch order as the source (the trailing
`else return 0` included). -/
def find : Tree → Int → Nat
  | .nil, _ => 0
  | .node left d right, data =>
    if d < data then find right data
    else if data < d then find left data
    else if data = d then 1
    else 0

/-- Branch instrumentation of `find`: mirrors `find`'s control flow exactly
and returns `true` iff the trailing `else return 0` (the branch after the
equality check) executes on this input. -/
def findDeadElse : Tree → Int → Bool
  | .nil, _ => false
  | .node left d right, data =>
    if d < data then findDeadElse right data
    else if data < d then findDeadElse left data
    else if data = d then false
    else true

/-- The C `height(root)`: 0 on `NULL`, else
`(right_h > left_h) ? right_h + 1 : left_h + 1`. -/
def height : Tree → Nat
  | .nil => 0
  | .node l _ r =>
    let right_h := height r
    let left_h := height l
    if left_h < right_h then right_h + 1 else left_h + 1

/-- The C `inOrder(root)`: the keys printed by the left-root-right traversal,
collected as a list instead of written to stdout. -/
def inOrder : Tree → List Int
  | .nil => []
  | .node l d r => inOrder l ++ d :: inOrder r

/-- Branch instrumentation of `delete`: mirrors `delete`'s control flow and
returns `true` iff some call of `getMax` made during the deletion receives
`NULL` (i.e. `getMax`'s non-null precondition would be violated, which in the
embedding is `getMax` being applied to `nil` or answering `none`). -/
def deleteGetMaxUndef : Tree → Int → Bool
  | .nil, _ => false
  | .node left d right, data =>
    if d < data then deleteGetMaxUndef right data
    else if data < d then deleteGetMaxUndef left data
    else
      if left.isNil && right.isNil then false
      else if left.isNil then false
      else if right.isNil then false
      else
        left.isNil ||
          match getMax left with
          | some (.node _ m _) => deleteGetMaxUndef left m
          | _ => true

/-- Predicate `allKeys p t`: `p` holds of every key in `t` (the `ForallTree` of the BST
invariant, as an executable Boolean). -/
def allKeys (p : Int → Bool) : Tree → Bool
  | .nil => true
  | .node l d r => p d && allKeys p l && allKeys p r

/-- The BST ordering invariant: every key of the left subtree is strictly
below the node's key and every key of the right subtree strictly above,
recursively. -/
def isBST : Tree → Bool
  | .nil => true
  | .node l d r =>
    allKeys (fun k => decide (k < d)) l &&
      allKeys (fun k => decide (d < k)) r && isBST l && isBST r

/-- One operation of the driver loop that the claims quantify over: a call of
`insert` or of `delete` with some key. -/
inductive Op where
  | insertOp (k : Int) : Op
  | deleteOp (k : Int) : Op
  deriving Repr, DecidableEq

/-- Apply one operation to the tree held in the driver's `root` variable. -/
def applyOp (t : Tree) : Op → Tree
  | .insertOp k => insert t k
  | .deleteOp k => delete t k

/-- Run a finite sequence of insert/delete operations from the empty tree. -/
def applyOps (ops : List Op) : Tree :=
  ops.foldl applyOp .nil

/-- One step of the bookkeeping for `present`: an insert of `k` makes it
present, a delete of `k` makes it absent, operations on other keys change
nothing. -/
def presStep (k : Int) (b : Bool) : Op → Bool
  | .insertOp j => if j = k then true else b
  | .deleteOp j => if j = k then false else b

/-- Predicate `present k ops`: `k` has been inserted by `ops` and not subsequently
deleted (the last operation of `ops` mentioning `k`, if any, is an insert). -/
def present (k : Int) (ops : List Op) : Bool :=
  ops.foldl (presStep k) false

/-- Build a tree by inserting the listed keys in order into an empty tree. -/
def buildTree (ks : List Int) : Tree :=
  ks.foldl insert .nil

/-- The tree of the spec's scenarios: insert 5, 3, 8, 1, 4. -/
def demoTree : Tree := buildTree [5, 3, 8, 1, 4]

/-- Ordered insertion into a list of keys, skipping a key already present:
the effect of `insert` on the in-order listing of a BST. -/
def listInsert (k : Int) : List Int → List Int
  | [] => [k]
  | x :: xs =>
    if k < x then k :: x :: xs
    else if k = x then x :: xs
    else x :: listInsert k xs

/-! ## Basic lemmas -/

theorem allKeys_iff (p : Int → Bool) (t : Tree) :
    allKeys p t = true ↔ ∀ k ∈ inOrder t, p k = true := by
  induction t with
  | nil => simp [allKeys, inOrder]
  | node l d r ihl ihr =>
    simp only [allKeys, inOrder, Bool.and_eq_true, ihl, ihr, List.mem_append,
      List.mem_cons]
    constructor
    · rintro ⟨⟨hd, hl⟩, hr⟩ k hk
      rcases hk with hk | hk | hk
      · exact hl k hk
      · exact hk ▸ hd
      · exact hr k hk
    · intro h
      exact ⟨⟨h d (Or.inr (Or.inl rfl)), fun k hk => h k (Or.inl hk)⟩,
        fun k hk => h k (Or.inr (Or.inr hk))⟩

theorem isBST_node_iff (l : Tree) (d : Int) (r : Tree) :
    isBST (.node l d r) = true ↔
      (∀ k ∈ inOrder l, k < d) ∧ (∀ k ∈ inOrder r, d < k) ∧
        isBST l = true ∧ isBST r = true := by
  simp only [isBST, Bool.and_eq_true, allKeys_iff, decide_eq_true_eq]
  tauto

theorem isBST_iff_sorted (t : Tree) :
    isBST t = true ↔ List.Sorted (fun a b => a < b) (inOrder t) := by
  induction t with
  | nil => simp [isBST, inOrder, List.Sorted]
  | node l d r ihl ihr =>
    rw [isBST_node_iff, inOrder, ihl, ihr]
    show _ ↔ List.Pairwise _ _
    rw [List.pairwise_append, List.pairwise_cons]
    constructor
    · rintro ⟨hla, hra, hsl, hsr⟩
      refine ⟨hsl, ⟨hra, hsr⟩, fun a ha b hb => ?_⟩
      rcases List.mem_cons.mp hb with rfl | hb
      · exact hla a ha
      · exact lt_trans (hla a ha) (hra b hb)
    · rintro ⟨hsl, ⟨hdr, hsr⟩, hcross⟩
      exact ⟨fun k hk => hcross k hk d (List.mem_cons_self d _), hdr, hsl, hsr⟩

theorem mem_insert_iff (t : Tree) (k x : Int) :
    x ∈ inOrder (insert t k) ↔ x = k ∨ x ∈ inOrder t := by
  induction t with
  | nil => simp [insert, inOrder]
  | node l d r ihl ihr =>
    by_cases h1 : d < k
    · simp only [insert, if_pos h1, inOrder, List.mem_append, List.mem_cons, ihr]
      tauto
    · by_cases h2 : k < d
      · simp only [insert, if_neg h1, if_pos h2, inOrder, List.mem_append,
          List.mem_cons, ihl]
        tauto
      · have hk : k = d := by omega
        subst hk
        simp only [insert, if_neg h1, if_neg h2, inOrder, List.mem_append,
          List.mem_cons]
        tauto

theorem allKeys_insert (p : Int → Bool) (t : Tree) (k : Int)
    (ht : allKeys p t = true) (hk : p k = true) :
    allKeys p (insert t k) = true := by
  rw [allKeys_iff] at ht ⊢
  intro x hx
  rcases (mem_insert_iff t k x).mp hx with rfl | hx
  · exact hk
  · exact ht x hx

theorem isBST_insert (t : Tree) (k : Int) (h : isBST t = true) :
    isBST (insert t k) = true := by
  induction t with
  | nil => simp [insert, isBST, allKeys]
  | node l d r ihl ihr =>
    simp only [isBST, Bool.and_eq_true] at h
    obtain ⟨⟨⟨hal, har⟩, hbl⟩, hbr⟩ := h
    by_cases h1 : d < k
    · simp only [insert, if_pos h1, isBST, Bool.and_eq_true]
      exact ⟨⟨⟨hal, allKeys_insert _ r k har (by simpa using h1)⟩, hbl⟩, ihr hbr⟩
    · by_cases h2 : k < d
      · simp only [insert, if_neg h1, if_pos h2, isBST, Bool.and_eq_true]
        exact ⟨⟨⟨allKeys_insert _ l k hal (by simpa using h2), har⟩, ihl hbl⟩, hbr⟩
      · simp only [insert, if_neg h1, if_neg h2, isBST, Bool.and_eq_true]
        exact ⟨⟨⟨hal, har⟩, hbl⟩, hbr⟩

theorem getMax_spec (t : Tree) (h : t ≠ Tree.nil) :
    ∃ l m, getMax t = some (Tree.node l m Tree.nil) ∧
      ∃ ys, inOrder t = ys ++ [m] := by
  induction t with
  | nil => exact absurd rfl h
  | node l d r ihl ihr =>
    cases r with
    | nil => exact ⟨l, d, rfl, inOrder l, by simp [inOrder]⟩
    | node rl rd rr =>
      obtain ⟨l', m, hg, ys, hy⟩ := ihr (by simp)
      refine ⟨l', m, ?_, inOrder l ++ d :: ys, ?_⟩
      · simpa [getMax] using hg
      · rw [inOrder, hy]
        simp

theorem getMax_isSome (t : Tree) (h : t ≠ Tree.nil) :
    (getMax t).isSome = true := by
  obtain ⟨l, m, hg, _⟩ := getMax_spec t h
  rw [hg]
  rfl

theorem insert_ne_nil (t : Tree) (k : Int) : insert t k ≠ Tree.nil := by
  cases t with
  | nil => simp [insert]
  | node l d r =>
    simp only [insert]
    split_ifs <;> simp

theorem filter_ne_self (xs : List Int) (k : Int) (h : k ∉ xs) :
    xs.filter (fun x => decide (x ≠ k)) = xs := by
  apply List.filter_eq_self.mpr
  intro a ha
  simp only [decide_eq_true_eq]
  exact fun he => h (he ▸ ha)

/-- The effect of `delete` on the in-order listing of a BST: the key, if
present, is filtered out; everything else keeps its relative position. -/
theorem inOrder_delete (t : Tree) (k : Int) (h : isBST t = true) :
    inOrder (delete t k) = (inOrder t).filter (fun x => decide (x ≠ k)) := by
  induction t generalizing k with
  | nil => simp [delete, inOrder]
  | node l d r ihl ihr =>
    rw [isBST_node_iff] at h
    obtain ⟨hal, har, hbl, hbr⟩ := h
    by_cases h1 : d < k
    · have hdk : d ≠ k := by omega
      have hkl : k ∉ inOrder l := fun hk => absurd (hal k hk) (by omega)
      have hcons : (d :: inOrder r).filter (fun x => decide (x ≠ k))
          = d :: (inOrder r).filter (fun x => decide (x ≠ k)) := by
        rw [List.filter_cons]
        simp [hdk]
      simp only [delete, if_pos h1, inOrder, List.filter_append,
        filter_ne_self (inOrder l) k hkl, hcons, ihr k hbr]
    · by_cases h2 : k < d
      · have hdk : d ≠ k := by omega
        have hkr : k ∉ inOrder r := fun hk => absurd (har k hk) (by omega)
        have hcons : (d :: inOrder r).filter (fun x => decide (x ≠ k))
            = d :: inOrder r := by
          rw [List.filter_cons, if_pos (by simpa using hdk),
            filter_ne_self (inOrder r) k hkr]
        simp only [delete, if_neg h1, if_pos h2, inOrder, List.filter_append,
          hcons, ihl k hbl]
      · have hk : d = k := by omega
        subst hk
        have hkl : d ∉ inOrder l := fun hk' => absurd (hal _ hk') (lt_irrefl _)
        have hkr : d ∉ inOrder r := fun hk' => absurd (har _ hk') (lt_irrefl _)
        rw [show delete (Tree.node l d r) d
            = (if l.isNil && r.isNil then Tree.nil
               else if l.isNil then r
               else if r.isNil then l
               else
                 match getMax l with
                 | some (.node _ m _) => Tree.node (delete l m) m r
                 | _ => Tree.nil) from by
          simp only [delete, lt_irrefl, if_false]]
        have hconsd : (d :: inOrder r).filter (fun x => decide (x ≠ d))
            = inOrder r := by
          rw [List.filter_cons, if_neg (by simp), filter_ne_self (inOrder r) d hkr]
        rw [inOrder, List.filter_append, filter_ne_self (inOrder l) d hkl, hconsd]
        cases l with
        | nil =>
          cases r with
          | nil => simp [Tree.isNil, inOrder]
          | node rl rd rr => simp [Tree.isNil, inOrder]
        | node ll ld lr =>
          cases r with
          | nil => simp [Tree.isNil, inOrder]
          | node rl rd rr =>
            simp only [Tree.isNil, Bool.false_and, Bool.false_eq_true, if_false]
            obtain ⟨l', m, hg, ys, hy⟩ := getMax_spec (Tree.node ll ld lr) (by simp)
            rw [hg]
            have hys : ∀ y ∈ ys, y < m := by
              have hs := (isBST_iff_sorted _).mp hbl
              rw [hy] at hs
              intro y hyy
              exact (List.pairwise_append.mp hs).2.2 y hyy m (List.mem_singleton_self m)
            have hmys : m ∉ ys := fun hm => absurd (hys m hm) (lt_irrefl m)
            have hfly : (inOrder (Tree.node ll ld lr)).filter
                (fun x => decide (x ≠ m)) = ys := by
              rw [hy, List.filter_append, filter_ne_self ys m hmys]
              simp
            rw [inOrder, ihl m hbl, hfly, hy]
            simp

theorem mem_delete_iff (t : Tree) (k x : Int) (h : isBST t = true) :
    x ∈ inOrder (delete t k) ↔ x ∈ inOrder t ∧ x ≠ k := by
  rw [inOrder_delete t k h]
  simp [List.mem_filter]

theorem isBST_delete (t : Tree) (k : Int) (h : isBST t = true) :
    isBST (delete t k) = true := by
  rw [isBST_iff_sorted, inOrder_delete t k h]
  exact List.Pairwise.sublist (List.filter_sublist _) ((isBST_iff_sorted t).mp h)

theorem insert_mem_noop (t : Tree) (k : Int) (h : isBST t = true)
    (hk : k ∈ inOrder t) : insert t k = t := by
  induction t with
  | nil => simp [inOrder] at hk
  | node l d r ihl ihr =>
    rw [isBST_node_iff] at h
    obtain ⟨hal, har, hbl, hbr⟩ := h
    rw [inOrder] at hk
    rcases List.mem_append.mp hk with hk | hk
    · have hkd : k < d := hal k hk
      rw [insert, if_neg (by omega), if_pos hkd, ihl hbl hk]
    · rcases List.mem_cons.mp hk with rfl | hk
      · rw [insert, if_neg (lt_irrefl _), if_neg (lt_irrefl _)]
      · have hkd : d < k := har k hk
        rw [insert, if_pos hkd, ihr hbr hk]

theorem find_spec (t : Tree) (k : Int) (h : isBST t = true) :
    find t k = if k ∈ inOrder t then 1 else 0 := by
  induction t with
  | nil => simp [find, inOrder]
  | node l d r ihl ihr =>
    rw [isBST_node_iff] at h
    obtain ⟨hal, har, hbl, hbr⟩ := h
    have hmem : k ∈ inOrder (Tree.node l d r) ↔
        k ∈ inOrder l ∨ k = d ∨ k ∈ inOrder r := by
      simp [inOrder]
    by_cases h1 : d < k
    · have hnl : k ∉ inOrder l := fun hk => absurd (hal k hk) (by omega)
      have hne : ¬(k = d) := by omega
      rw [find, if_pos h1, ihr hbr]
      by_cases hr : k ∈ inOrder r
      · rw [if_pos hr, if_pos (hmem.mpr (Or.inr (Or.inr hr)))]
      · rw [if_neg hr, if_neg (fun hk => by
          rcases hmem.mp hk with hcase | hcase | hcase
          · exact hnl hcase
          · exact hne hcase
          · exact hr hcase)]
    · by_cases h2 : k < d
      · have hnr : k ∉ inOrder r := fun hk => absurd (har k hk) (by omega)
        have hne : ¬(k = d) := by omega
        rw [find, if_neg h1, if_pos h2, ihl hbl]
        by_cases hl : k ∈ inOrder l
        · rw [if_pos hl, if_pos (hmem.mpr (Or.inl hl))]
        · rw [if_neg hl, if_neg (fun hk => by
            rcases hmem.mp hk with hcase | hcase | hcase
            · exact hl hcase
            · exact hne hcase
            · exact hnr hcase)]
      · have hk : k = d := by omega
        rw [find, if_neg h1, if_neg h2, if_pos hk,
          if_pos (hmem.mpr (Or.inr (Or.inl hk)))]

/-! ## Ordered-list lemmas for `listInsert` -/

theorem listInsert_nil (k : Int) : listInsert k [] = [k] := rfl

theorem listInsert_cons_lt (k x : Int) (xs : List Int) (h : k < x) :
    listInsert k (x :: xs) = k :: x :: xs := by
  rw [listInsert, if_pos h]

theorem listInsert_cons_eq (k x : Int) (xs : List Int) (h : k = x) :
    listInsert k (x :: xs) = x :: xs := by
  rw [listInsert, if_neg (by omega), if_pos h]

theorem listInsert_cons_gt (k x : Int) (xs : List Int) (h : x < k) :
    listInsert k (x :: xs) = x :: listInsert k xs := by
  rw [listInsert, if_neg (by omega), if_neg (by omega)]

theorem listInsert_append_of_lt (k : Int) (xs ys : List Int)
    (h : ∀ x ∈ xs, x < k) :
    listInsert k (xs ++ ys) = xs ++ listInsert k ys := by
  induction xs with
  | nil => simp
  | cons x xs ih =>
    rw [List.cons_append, listInsert_cons_gt k x _ (h x (List.mem_cons_self x xs)),
      ih (fun y hy => h y (List.mem_cons_of_mem x hy)), List.cons_append]

theorem listInsert_append_cons_of_lt (k d : Int) (xs ys : List Int) (h : k < d) :
    listInsert k (xs ++ d :: ys) = listInsert k xs ++ d :: ys := by
  induction xs with
  | nil =>
    rw [List.nil_append, listInsert_cons_lt _ _ _ h, listInsert_nil]
    rfl
  | cons x xs ih =>
    rcases lt_trichotomy k x with hx | hx | hx
    · rw [List.cons_append, listInsert_cons_lt _ _ _ hx, listInsert_cons_lt _ _ _ hx,
        List.cons_append, List.cons_append]
    · rw [List.cons_append, listInsert_cons_eq _ _ _ hx, listInsert_cons_eq _ _ _ hx,
        List.cons_append]
    · rw [List.cons_append, listInsert_cons_gt _ _ _ hx, listInsert_cons_gt _ _ _ hx,
        ih, List.cons_append]

theorem listInsert_comm_of_lt (a b : Int) (hab : a < b) (xs : List Int) :
    listInsert a (listInsert b xs) = listInsert b (listInsert a xs) := by
  induction xs with
  | nil =>
    rw [listInsert_nil, listInsert_nil, listInsert_cons_lt _ _ _ hab,
      listInsert_cons_gt _ _ _ hab, listInsert_nil]
  | cons x xs ih =>
    rcases lt_trichotomy b x with hbx | rfl | hbx
    · have hax : a < x := lt_trans hab hbx
      rw [listInsert_cons_lt _ _ _ hbx, listInsert_cons_lt _ _ _ hab,
        listInsert_cons_lt _ _ _ hax, listInsert_cons_gt _ _ _ hab,
        listInsert_cons_lt _ _ _ hbx]
    · rw [listInsert_cons_eq _ _ _ rfl, listInsert_cons_lt _ _ _ hab,
        listInsert_cons_gt _ _ _ hab, listInsert_cons_eq _ _ _ rfl]
    · rw [listInsert_cons_gt _ _ _ hbx]
      rcases lt_trichotomy a x with hax | hax | hax
      · rw [listInsert_cons_lt _ _ _ hax, listInsert_cons_lt _ _ _ hax,
          listInsert_cons_gt _ _ _ hab, listInsert_cons_gt _ _ _ hbx]
      · rw [listInsert_cons_eq _ _ _ hax, listInsert_cons_eq _ _ _ hax,
          listInsert_cons_gt _ _ _ hbx]
      · rw [listInsert_cons_gt _ _ _ hax, listInsert_cons_gt _ _ _ hax,
          listInsert_cons_gt _ _ _ hbx, ih]

theorem listInsert_comm (a b : Int) (xs : List Int) :
    listInsert a (listInsert b xs) = listInsert b (listInsert a xs) := by
  rcases lt_trichotomy a b with h | rfl | h
  · exact listInsert_comm_of_lt a b h xs
  · rfl
  · exact (listInsert_comm_of_lt b a h xs).symm

/-- The effect of `insert` on the in-order listing of a BST: ordered insertion
skipping duplicates. -/
theorem inOrder_insert (t : Tree) (k : Int) (h : isBST t = true) :
    inOrder (insert t k) = listInsert k (inOrder t) := by
  induction t with
  | nil => rfl
  | node l d r ihl ihr =>
    rw [isBST_node_iff] at h
    obtain ⟨hal, har, hbl, hbr⟩ := h
    by_cases h1 : d < k
    · rw [insert, if_pos h1, inOrder, inOrder, ihr hbr,
        listInsert_append_of_lt k (inOrder l) _ (fun x hx => lt_trans (hal x hx) h1),
        listInsert_cons_gt _ _ _ h1]
    · by_cases h2 : k < d
      · rw [insert, if_neg h1, if_pos h2, inOrder, inOrder, ihl hbl,
          listInsert_append_cons_of_lt k d _ _ h2]
      · have hk : k = d := by omega
        rw [insert, if_neg h1, if_neg h2, inOrder,
          listInsert_append_of_lt k (inOrder l) _
            (fun x hx => by have := hal x hx; omega),
          listInsert_cons_eq _ _ _ hk]

/-! ## Height lemmas -/

theorem height_node (l : Tree) (d : Int) (r : Tree) :
    height (Tree.node l d r)
      = if height l < height r then height r + 1 else height l + 1 := rfl

theorem height_le_length (t : Tree) : height t ≤ (inOrder t).length := by
  induction t with
  | nil => simp [height, inOrder]
  | node l d r ihl ihr =>
    rw [height_node, inOrder]
    simp only [List.length_append, List.length_cons]
    split_ifs <;> omega

theorem one_le_height (t : Tree) (h : t ≠ Tree.nil) : 1 ≤ height t := by
  cases t with
  | nil => exact absurd rfl h
  | node l d r =>
    rw [height_node]
    split_ifs <;> omega

theorem foldl_insert_ne_nil (ks : List Int) (t : Tree) (h : t ≠ Tree.nil) :
    ks.foldl insert t ≠ Tree.nil := by
  induction ks generalizing t with
  | nil => simpa using h
  | cons k ks ih => exact ih (insert t k) (insert_ne_nil t k)

theorem buildTree_ne_nil (ks : List Int) (h : ks ≠ []) :
    buildTree ks ≠ Tree.nil := by
  cases ks with
  | nil => exact absurd rfl h
  | cons k ks => exact foldl_insert_ne_nil ks (insert Tree.nil k) (insert_ne_nil _ _)

theorem length_inOrder_insert (t : Tree) (k : Int) :
    (inOrder (insert t k)).length ≤ (inOrder t).length + 1 := by
  induction t with
  | nil => simp [insert, inOrder]
  | node l d r ihl ihr =>
    rw [insert]
    split_ifs with h1 h2 <;>
      simp only [inOrder, List.length_append, List.length_cons] <;> omega

theorem length_inOrder_foldl_insert (ks : List Int) (t : Tree) :
    (inOrder (ks.foldl insert t)).length ≤ (inOrder t).length + ks.length := by
  induction ks generalizing t with
  | nil => simp
  | cons k ks ih =>
    have h1 : (inOrder ((k :: ks).foldl insert t)).length
        = (inOrder (ks.foldl insert (insert t k))).length := rfl
    have h2 := ih (insert t k)
    have h3 := length_inOrder_insert t k
    rw [h1]
    simp only [List.length_cons]
    omega

/-! ## Operation-sequence lemmas -/

theorem isBST_applyOp (t : Tree) (op : Op) (h : isBST t = true) :
    isBST (applyOp t op) = true := by
  cases op with
  | insertOp k => exact isBST_insert t k h
  | deleteOp k => exact isBST_delete t k h

theorem isBST_foldl_applyOp (ops : List Op) (t : Tree) (h : isBST t = true) :
    isBST (ops.foldl applyOp t) = true := by
  induction ops generalizing t with
  | nil => simpa using h
  | cons op ops ih => exact ih (applyOp t op) (isBST_applyOp t op h)

theorem isBST_applyOps (ops : List Op) : isBST (applyOps ops) = true :=
  isBST_foldl_applyOp ops Tree.nil rfl

theorem mem_foldl_applyOp (ops : List Op) (k : Int) (t : Tree) (b : Bool)
    (hbst : isBST t = true) (hb : k ∈ inOrder t ↔ b = true) :
    k ∈ inOrder (ops.foldl applyOp t) ↔ ops.foldl (presStep k) b = true := by
  induction ops generalizing t b with
  | nil => simpa using hb
  | cons op ops ih =>
    rw [List.foldl_cons, List.foldl_cons]
    cases op with
    | insertOp j =>
      exact ih (insert t j) (if j = k then true else b) (isBST_insert t j hbst)
        (by
          rw [mem_insert_iff]
          by_cases hj : j = k
          · subst hj
            simp
          · rw [if_neg hj, or_iff_right (fun h => hj h.symm)]
            exact hb)
    | deleteOp j =>
      exact ih (delete t j) (if j = k then false else b) (isBST_delete t j hbst)
        (by
          rw [mem_delete_iff t j k hbst]
          by_cases hj : j = k
          · subst hj
            simp
          · rw [if_neg hj, and_iff_left (fun h => hj h.symm)]
            exact hb)

theorem find_present (ops : List Op) (k : Int) :
    find (applyOps ops) k = if present k ops = true then 1 else 0 := by
  rw [find_spec _ k (isBST_applyOps ops)]
  exact if_congr (mem_foldl_applyOp ops k Tree.nil false rfl (by simp [inOrder]))
    rfl rfl

/-- Reduction of `delete` in the two-children case: the deleted node's key is
replaced by the key of `getMax` of the left subtree, which is then deleted
from the left subtree. -/
theorem delete_two_child_eq (ll : Tree) (ld : Int) (lr rl : Tree) (rd : Int)
    (rr : Tree) (d : Int) :
    ∃ l' m, getMax (Tree.node ll ld lr) = some (Tree.node l' m Tree.nil) ∧
      delete (Tree.node (Tree.node ll ld lr) d (Tree.node rl rd rr)) d
        = Tree.node (delete (Tree.node ll ld lr) m) m (Tree.node rl rd rr) := by
  obtain ⟨l', m, hg, _⟩ := getMax_spec (Tree.node ll ld lr) (by simp)
  refine ⟨l', m, hg, ?_⟩
  conv_lhs => rw [delete]
  rw [if_neg (lt_irrefl d), if_neg (lt_irrefl d),
    if_neg (by simp [Tree.isNil]), if_neg (by simp [Tree.isNil]),
    if_neg (by simp [Tree.isNil]), hg]

/-! ## Claim theorems -/

/-- C1: for every finite sequence of insert and delete operations applied
starting from the empty tree, the resulting tree satisfies the BST invariant
and its in-order traversal is a strictly ascending sequence of keys. -/
theorem bst_invariant_applyOps (ops : List Op) :
    isBST (applyOps ops) = true
      ∧ List.Sorted (fun a b => a < b) (inOrder (applyOps ops)) :=
  ⟨isBST_applyOps ops, (isBST_iff_sorted _).mp (isBST_applyOps ops)⟩

/-- C2: after any operation sequence, `find` returns 1 exactly for the keys
that were inserted and not subsequently deleted, and 0 otherwise; in
particular on the tree built from 5, 3, 8, 1, 4, `find 4` returns 1 and
`find 9` returns 0. -/
theorem find_roundtrip :
    (∀ (ops : List Op) (k : Int),
        find (applyOps ops) k = if present k ops = true then 1 else 0)
      ∧ find demoTree 4 = 1 ∧ find demoTree 9 = 0 :=
  ⟨find_present, by decide, by decide⟩

/-- C3: on a BST, `delete` removes exactly the requested key from the
in-order listing, leaving the relative order of all other keys unchanged;
deleting an absent key leaves the in-order sequence unchanged; in particular
deleting the leaf key 1 from the 5,3,8,1,4 tree gives [3, 4, 5, 8]. -/
theorem delete_correctness :
    (∀ (t : Tree) (k : Int), isBST t = true →
        inOrder (delete t k) = (inOrder t).filter (fun x => decide (x ≠ k)))
      ∧ (∀ (t : Tree) (k : Int), isBST t = true → k ∉ inOrder t →
          inOrder (delete t k) = inOrder t)
      ∧ inOrder (delete demoTree 1) = [3, 4, 5, 8] := by
  refine ⟨inOrder_delete, fun t k h hk => ?_, by decide⟩
  rw [inOrder_delete t k h, filter_ne_self _ _ hk]

/-- Witness for C3 at concrete inputs: deleting the present key 4 filters it
out of the listing, deleting the absent key 9 is a no-op. -/
theorem delete_correctness_witness :
    inOrder (delete demoTree 4)
        = (inOrder demoTree).filter (fun x => decide (x ≠ 4))
      ∧ inOrder (delete demoTree 9) = inOrder demoTree :=
  ⟨delete_correctness.1 demoTree 4 (by decide),
    delete_correctness.2.1 demoTree 9 (by decide) (by decide)⟩

/-- C4: inserting an already-present key into a BST is a structural no-op,
and insertion is idempotent. -/
theorem insert_idempotent :
    (∀ (t : Tree) (k : Int), isBST t = true → k ∈ inOrder t → insert t k = t)
      ∧ (∀ (t : Tree) (k : Int), isBST t = true →
          insert (insert t k) k = insert t k) := by
  refine ⟨insert_mem_noop, fun t k h => ?_⟩
  exact insert_mem_noop (insert t k) k (isBST_insert t k h)
    ((mem_insert_iff t k k).mpr (Or.inl rfl))

/-- Witness for C4 at concrete inputs. -/
theorem insert_idempotent_witness :
    insert demoTree 4 = demoTree
      ∧ insert (insert demoTree 7) 7 = insert demoTree 7 :=
  ⟨insert_idempotent.1 demoTree 4 (by decide) (by decide),
    insert_idempotent.2 demoTree 7 (by decide)⟩

/-- C5: when deleting a key whose node has two children, `delete` copies the
key of `getMax` of the left subtree (the in-order predecessor, the rightmost
node of the left subtree) into the node and recursively deletes that key from
the left subtree; in particular `delete demoTree 5` has root key 4 and
in-order listing [1, 3, 4, 8]. -/
theorem delete_two_children_spec :
    (∀ (ll : Tree) (ld : Int) (lr rl : Tree) (rd : Int) (rr : Tree) (d : Int),
        ∃ l' m, getMax (Tree.node ll ld lr) = some (Tree.node l' m Tree.nil) ∧
          delete (Tree.node (Tree.node ll ld lr) d (Tree.node rl rd rr)) d
            = Tree.node (delete (Tree.node ll ld lr) m) m (Tree.node rl rd rr))
      ∧ (delete demoTree 5).rootData = some 4
      ∧ inOrder (delete demoTree 5) = [1, 3, 4, 8] :=
  ⟨delete_two_child_eq, by decide, by decide⟩

/-- C6: `height` is 0 on the empty tree and `1 + max` of the children's
heights otherwise, so a single node has height 1; a non-empty tree with `n`
keys has `1 ≤ height ≤ n` (and a tree built from a non-empty insertion list
`ks` has height between 1 and `ks.length`); the 5,3,8,1,4 tree has
height 3. -/
theorem height_spec :
    height Tree.nil = 0
      ∧ (∀ (l : Tree) (d : Int) (r : Tree),
          height (Tree.node l d r) = 1 + max (height l) (height r))
      ∧ (∀ d : Int, height (Tree.node Tree.nil d Tree.nil) = 1)
      ∧ (∀ t : Tree, t ≠ Tree.nil →
          1 ≤ height t ∧ height t ≤ (inOrder t).length)
      ∧ (∀ ks : List Int, ks ≠ [] →
          1 ≤ height (buildTree ks) ∧ height (buildTree ks) ≤ ks.length)
      ∧ height demoTree = 3 := by
  refine ⟨rfl, fun l d r => ?_, fun d => rfl,
    fun t ht => ⟨one_le_height t ht, height_le_length t⟩,
    fun ks hks => ⟨one_le_height _ (buildTree_ne_nil ks hks), ?_⟩, by decide⟩
  · rw [height_node]
    split_ifs with hcmp
    · rw [Nat.max_eq_right (Nat.le_of_lt hcmp)]
      omega
    · rw [Nat.max_eq_left (Nat.le_of_not_lt hcmp)]
      omega
  · have h1 := height_le_length (buildTree ks)
    have h2 := length_inOrder_foldl_insert ks Tree.nil
    simp only [buildTree] at h1 ⊢
    simp only [inOrder, List.length_nil, Nat.zero_add] at h2
    omega

/-- Witness for C6 at concrete inputs. -/
theorem height_spec_witness :
    (1 ≤ height demoTree ∧ height demoTree ≤ (inOrder demoTree).length)
      ∧ (1 ≤ height (buildTree [5, 3, 8, 1, 4])
          ∧ height (buildTree [5, 3, 8, 1, 4]) ≤ ([5, 3, 8, 1, 4] : List Int).length) :=
  ⟨height_spec.2.2.2.1 demoTree (by decide),
    height_spec.2.2.2.2.1 [5, 3, 8, 1, 4] (by decide)⟩

/-- C7: on every non-empty tree, `getMax` returns the rightmost node (whose
right child slot is empty, and whose key ends the in-order listing), and —
when the tree is a BST — that node holds the greatest key of the subtree. -/
theorem getMax_rightmost_spec (t : Tree) (h : t ≠ Tree.nil) :
    ∃ l m ys, getMax t = some (Tree.node l m Tree.nil)
      ∧ inOrder t = ys ++ [m]
      ∧ (isBST t = true → ∀ x ∈ inOrder t, x ≤ m) := by
  obtain ⟨l, m, hg, ys, hy⟩ := getMax_spec t h
  refine ⟨l, m, ys, hg, hy, fun hbst x hx => ?_⟩
  have hs := (isBST_iff_sorted t).mp hbst
  rw [hy] at hs hx
  rcases List.mem_append.mp hx with hx | hx
  · exact le_of_lt
      ((List.pairwise_append.mp hs).2.2 x hx m (List.mem_singleton_self m))
  · exact le_of_eq (List.mem_singleton.mp hx)

/-- Witness for C7 at a concrete input. -/
theorem getMax_rightmost_spec_witness :
    ∃ l m ys, getMax demoTree = some (Tree.node l m Tree.nil)
      ∧ inOrder demoTree = ys ++ [m]
      ∧ (isBST demoTree = true → ∀ x ∈ inOrder demoTree, x ≤ m) :=
  getMax_rightmost_spec demoTree (by decide)

/-- C8: the trailing `else return 0` of `find` (after the equality check) is
dead code: on every tree and key the instrumented control flow never reaches
it. -/
theorem find_dead_else_unreachable (t : Tree) (k : Int) :
    findDeadElse t k = false := by
  induction t with
  | nil => rfl
  | node l d r ihl ihr =>
    rw [findDeadElse]
    split_ifs with h1 h2 h3
    · exact ihr
    · exact ihl
    · rfl
    · exact absurd (by omega : k = d) h3

/-- C9: `delete` always satisfies `getMax`'s non-null precondition — in the
two-children case `getMax` is applied to the left child, which is non-null
there, and `getMax` succeeds on every non-empty tree. -/
theorem delete_getMax_precondition :
    (∀ (t : Tree) (k : Int), deleteGetMaxUndef t k = false)
      ∧ (∀ t : Tree, t ≠ Tree.nil → (getMax t).isSome = true) := by
  refine ⟨fun t k => ?_, getMax_isSome⟩
  induction t generalizing k with
  | nil => rfl
  | node l d r ihl ihr =>
    rw [deleteGetMaxUndef]
    by_cases h1 : d < k
    · rw [if_pos h1]
      exact ihr k
    · rw [if_neg h1]
      by_cases h2 : k < d
      · rw [if_pos h2]
        exact ihl k
      · rw [if_neg h2]
        cases l with
        | nil =>
          cases r with
          | nil => simp [Tree.isNil]
          | node rl rd rr => simp [Tree.isNil]
        | node ll ld lr =>
          cases r with
          | nil => simp [Tree.isNil]
          | node rl rd rr =>
            rw [if_neg (by simp [Tree.isNil]), if_neg (by simp [Tree.isNil]),
              if_neg (by simp [Tree.isNil])]
            obtain ⟨l', m, hg, _⟩ := getMax_spec (Tree.node ll ld lr) (by simp)
            rw [hg]
            show (false || deleteGetMaxUndef (Tree.node ll ld lr) m) = false
            rw [Bool.false_or]
            exact ihl m

/-- Witness for C9 at concrete inputs. -/
theorem delete_getMax_precondition_witness :
    deleteGetMaxUndef demoTree 5 = false ∧ (getMax demoTree).isSome = true :=
  ⟨delete_getMax_precondition.1 demoTree 5,
    delete_getMax_precondition.2 demoTree (by decide)⟩

/-- C10: on a BST the observable (in-order) result of two insertions does not
depend on their order. -/
theorem insert_comm_observable (t : Tree) (a b : Int) (h : isBST t = true) :
    inOrder (insert (insert t a) b) = inOrder (insert (insert t b) a) := by
  rw [inOrder_insert _ b (isBST_insert t a h), inOrder_insert t a h,
    inOrder_insert _ a (isBST_insert t b h), inOrder_insert t b h,
    listInsert_comm]

/-- Witness for C10 at a concrete input. -/
theorem insert_comm_observable_witness :
    inOrder (insert (insert demoTree 2) 7)
      = inOrder (insert (insert demoTree 7) 2) :=
  insert_comm_observable demoTree 2 7 (by decide)

end BSTC
